import Mathlib

set_option maxRecDepth 40000

/-!
Verification of the DER length codec and item reader declared in
`src/crypto/der.h` (`der_read_length`, `der_write_length`, `der_read_item`,
`DER_ITEM`).  The header only declares the interface; the behaviour of the
three operations and of the buffer-cursor collaborator is modelled from the
specification (sections 3, 4.1, 4.2, 6 and 7 of the design document).

Bytes are modelled as natural numbers (`< 256` where byte-ness matters), a
read cursor as an immutable byte list together with a position, and a write
cursor as a capacity together with the bytes written so far.  Fallible
operations return `Except DerError`, with the spec's three error kinds.
-/

/-- Modelled from the spec: the three error kinds of section 7
(`TruncatedInput`, `InvalidEncoding`, `BufferFull`). -/
inductive DerError : Type
  | TruncatedInput
  | InvalidEncoding
  | BufferFull
deriving DecidableEq, Repr

/-- Modelled from the spec: the external buffer read cursor (section 6):
a bounds-checked cursor over an immutable byte region with a current
position.  Missing from `src/` (only `buffer.h` is referenced). -/
structure BUFFER_READER : Type where
  data : List Nat
  pos : Nat
deriving DecidableEq, Repr

/-- Modelled from the spec: the external buffer write cursor (section 6):
a bounds-checked append cursor over a region of fixed capacity. -/
structure BUFFER_WRITER : Type where
  cap : Nat
  data : List Nat
deriving DecidableEq, Repr

/-- The bytes remaining in front of a read cursor. -/
def BUFFER_READER.rem (buf : BUFFER_READER) : List Nat :=
  buf.data.drop buf.pos

/-- Modelled from the spec: `remaining() -> size` of the read cursor. -/
def remaining (buf : BUFFER_READER) : Nat :=
  buf.data.length - buf.pos

/-- Modelled from the spec: `read_byte() -> byte or TruncatedInput`. -/
def readByte (buf : BUFFER_READER) : Except DerError (Nat × BUFFER_READER) :=
  match buf.rem.head? with
  | none => .error .TruncatedInput
  | some b => .ok (b, ⟨buf.data, buf.pos + 1⟩)

/-- Modelled from the spec: `read_bytes(n) -> slice or TruncatedInput`. -/
def readBytes (buf : BUFFER_READER) (n : Nat) :
    Except DerError (List Nat × BUFFER_READER) :=
  if n ≤ remaining buf then .ok (buf.rem.take n, ⟨buf.data, buf.pos + n⟩)
  else .error .TruncatedInput

/-- Modelled from the spec: `slice(n) -> sub-cursor or TruncatedInput`; the
sub-cursor is scoped to exactly the next `n` bytes and the outer cursor is
advanced past them. -/
def bufSlice (buf : BUFFER_READER) (n : Nat) :
    Except DerError (BUFFER_READER × BUFFER_READER) :=
  if n ≤ remaining buf then
    .ok (⟨buf.rem.take n, 0⟩, ⟨buf.data, buf.pos + n⟩)
  else .error .TruncatedInput

/-- The value of a big-endian byte sequence. -/
def beVal (bs : List Nat) : Nat :=
  bs.foldl (fun acc b => acc * 256 + b) 0

/-- The minimal big-endian byte representation of a natural number
(no leading zero byte; empty for `0`). -/
def beBytes (n : Nat) : List Nat :=
  (Nat.digits 256 n).reverse

/-- Modelled from the spec: `der_read_length` (declared at
`src/crypto/der.h:41`, implementation not under `src/`), following the decode
steps of section 4.1: read `b0`; short form if `b0 < 0x80`; reject `0x80`
(indefinite) as `InvalidEncoding`; otherwise long form with `n` the low 7
bits of `b0`, rejecting `n` above the maximum representable length size
(4 bytes, for the `[0, 2^32)` length domain), reading exactly `n` bytes
(`TruncatedInput` if fewer remain), reconstructing the big-endian value and
rejecting non-canonical forms; finally the post-check: `TruncatedInput` if
the decoded length exceeds the bytes remaining after the length field. -/
def der_read_length (buf : BUFFER_READER) :
    Except DerError (Nat × BUFFER_READER) :=
  match readByte buf with
  | .error e => .error e
  | .ok (b0, buf1) =>
    if b0 < 0x80 then
      if remaining buf1 < b0 then .error .TruncatedInput
      else .ok (b0, buf1)
    else if b0 = 0x80 then .error .InvalidEncoding
    else
      let n := b0 % 0x80
      if 4 < n then .error .InvalidEncoding
      else
        match readBytes buf1 n with
        | .error e => .error e
        | .ok (bs, buf2) =>
          if beVal bs < 0x80 then .error .InvalidEncoding
          else if 1 < n ∧ bs.head? = some 0 then .error .InvalidEncoding
          else if remaining buf2 < beVal bs then .error .TruncatedInput
          else .ok (beVal bs, buf2)

/-- Modelled from the spec: write a single byte, `BufferFull` when the
cursor lacks capacity. -/
def writeByte (buf : BUFFER_WRITER) (b : Nat) : Except DerError BUFFER_WRITER :=
  if buf.data.length < buf.cap then .ok ⟨buf.cap, buf.data ++ [b]⟩
  else .error .BufferFull

/-- Modelled from the spec: write a byte sequence, `BufferFull` when the
cursor lacks capacity. -/
def writeBytes (buf : BUFFER_WRITER) : List Nat → Except DerError BUFFER_WRITER
  | [] => .ok buf
  | b :: bs =>
    match writeByte buf b with
    | .error e => .error e
    | .ok buf1 => writeBytes buf1 bs

/-- Modelled from the spec: `der_write_length` (declared at
`src/crypto/der.h:42`, implementation not under `src/`), following the
encode steps of section 4.1: one byte equal to the length when it is below
`0x80`; otherwise one byte `0x80 ||| n` followed by the `n` minimal
big-endian bytes of the length (no leading zero byte). -/
def der_write_length (buf : BUFFER_WRITER) (len : Nat) :
    Except DerError BUFFER_WRITER :=
  if len < 0x80 then writeByte buf len
  else
    match writeByte buf (0x80 ||| (beBytes len).length) with
    | .error e => .error e
    | .ok buf1 => writeBytes buf1 (beBytes len)

/-- The decoded TLV node of `src/crypto/der.h:36-39`: a tag byte and the
content sub-cursor. -/
structure DER_ITEM : Type where
  id : Nat
  cont : BUFFER_READER
deriving DecidableEq, Repr

/-- Modelled from the spec: `der_read_item` (declared at
`src/crypto/der.h:43`, implementation not under `src/`), following section
4.2: read one tag byte (`TruncatedInput` on an empty cursor), decode the
length, construct a sub-cursor over exactly the next `length` bytes
(`TruncatedInput` if fewer remain) and advance the outer cursor past them. -/
def der_read_item (buf : BUFFER_READER) :
    Except DerError (DER_ITEM × BUFFER_READER) :=
  match readByte buf with
  | .error e => .error e
  | .ok (tag, buf1) =>
    match der_read_length buf1 with
    | .error e => .error e
    | .ok (len, buf2) =>
      match bufSlice buf2 len with
      | .error e => .error e
      | .ok (cont, buf3) => .ok (⟨tag, cont⟩, buf3)

/-- The boolean result observable at the C interface of `src/crypto/der.h`:
all three functions return `bool`, collapsing every error kind to `false`. -/
def exOk {α : Type} : Except DerError α → Bool
  | .ok _ => true
  | .error _ => false

example : der_read_length ⟨[0x7F, 1], 0⟩ = .error .TruncatedInput := by rfl
example : der_read_length ⟨[0x03, 9, 9, 9], 0⟩ = .ok (3, ⟨[0x03, 9, 9, 9], 1⟩) := by rfl
example : der_read_length ⟨[0x81, 0x05], 0⟩ = .error .InvalidEncoding := by rfl
example : der_read_length ⟨[0x80], 0⟩ = .error .InvalidEncoding := by rfl
example : der_read_length ⟨[0x84, 1, 2], 0⟩ = .error .TruncatedInput := by rfl
example : der_write_length ⟨4, []⟩ 0x7F = .ok ⟨4, [0x7F]⟩ := by rfl
example : der_read_item ⟨[0x30, 0x01, 0xAB], 0⟩ =
    .ok (⟨0x30, ⟨[0xAB], 0⟩⟩, ⟨[0x30, 0x01, 0xAB], 3⟩) := by rfl

/-! ### Cursor arithmetic -/

theorem remaining_eq (buf : BUFFER_READER) : remaining buf = buf.rem.length := by
  simp [remaining, BUFFER_READER.rem]

theorem rem_add (d : List Nat) (p k : Nat) :
    (⟨d, p + k⟩ : BUFFER_READER).rem = (⟨d, p⟩ : BUFFER_READER).rem.drop k := by
  simp [BUFFER_READER.rem, List.drop_drop]

/-! ### Big-endian byte values -/

theorem beVal_append (xs : List Nat) (b : Nat) :
    beVal (xs ++ [b]) = beVal xs * 256 + b := by
  simp [beVal, List.foldl_append]

theorem beVal_reverse (ds : List Nat) :
    beVal ds.reverse = Nat.ofDigits 256 ds := by
  induction ds with
  | nil => simp [beVal, Nat.ofDigits]
  | cons d t ih =>
    rw [List.reverse_cons, beVal_append, ih, Nat.ofDigits_cons]
    ring

theorem beVal_eq_ofDigits (bs : List Nat) :
    beVal bs = Nat.ofDigits 256 bs.reverse := by
  rw [← beVal_reverse bs.reverse, List.reverse_reverse]

theorem beVal_foldl (t : List Nat) : ∀ a : Nat,
    t.foldl (fun acc b => acc * 256 + b) a = a * 256 ^ t.length + beVal t := by
  induction t with
  | nil => intro a; simp [beVal]
  | cons b t ih =>
    intro a
    have hbt : beVal (b :: t) = t.foldl (fun acc b => acc * 256 + b) b := by
      simp [beVal]
    simp only [List.foldl_cons, List.length_cons]
    rw [ih (a * 256 + b), hbt, ih b]
    ring

theorem beVal_cons (b : Nat) (t : List Nat) :
    beVal (b :: t) = b * 256 ^ t.length + beVal t := by
  have : beVal (b :: t) = t.foldl (fun acc b => acc * 256 + b) b := by
    simp [beVal]
  rw [this, beVal_foldl]

theorem beVal_lt (bs : List Nat) (h : ∀ b ∈ bs, b < 256) :
    beVal bs < 256 ^ bs.length := by
  have h1 := @Nat.ofDigits_lt_base_pow_length 256 bs.reverse (by norm_num)
    (fun x hx => h x (List.mem_reverse.mp hx))
  rw [beVal_eq_ofDigits]
  simpa using h1

/-! ### Minimal big-endian representation -/

theorem beVal_beBytes (n : Nat) : beVal (beBytes n) = n := by
  rw [beBytes, beVal_reverse, Nat.ofDigits_digits]

theorem beBytes_lt (n : Nat) : ∀ b ∈ beBytes n, b < 256 := by
  intro b hb
  rw [beBytes, List.mem_reverse] at hb
  exact Nat.digits_lt_base (by norm_num) hb

theorem beBytes_ne_nil (n : Nat) (h : n ≠ 0) : beBytes n ≠ [] := by
  rw [beBytes]
  simp [Nat.digits_ne_nil_iff_ne_zero, h]

theorem beBytes_head (n : Nat) (h : n ≠ 0) : (beBytes n).head? ≠ some 0 := by
  have hnil : Nat.digits 256 n ≠ [] := Nat.digits_ne_nil_iff_ne_zero.mpr h
  have hlast := Nat.getLast_digit_ne_zero 256 h
  rw [beBytes, List.head?_reverse, List.getLast?_eq_getLast_of_ne_nil hnil]
  intro hc
  exact hlast (Option.some.inj hc)

theorem beBytes_len_le (n k : Nat) (h : n < 256 ^ k) :
    (beBytes n).length ≤ k := by
  by_cases h0 : n = 0
  · subst h0; simp [beBytes]
  by_contra hlt
  push_neg at hlt
  have h1 : 256 ^ (beBytes n).length ≤ 256 * n := by
    simpa [beBytes] using Nat.base_pow_length_digits_le 256 n (by norm_num) h0
  have h2 : 256 ^ (k + 1) ≤ 256 ^ (beBytes n).length :=
    Nat.pow_le_pow_right (by norm_num) (by omega)
  rw [pow_succ] at h2
  omega

theorem beBytes_len_pos (n : Nat) (h : n ≠ 0) : 1 ≤ (beBytes n).length := by
  have := beBytes_ne_nil n h
  cases hb : beBytes n with
  | nil => exact absurd hb this
  | cons a t => simp

theorem beBytes_len_lb (n : Nat) (h : n ≠ 0) :
    256 ^ ((beBytes n).length - 1) ≤ n := by
  have h1 : 256 ^ (beBytes n).length ≤ 256 * n := by
    simpa [beBytes] using Nat.base_pow_length_digits_le 256 n (by norm_num) h
  have hlen := beBytes_len_pos n h
  have h2 : 256 ^ (beBytes n).length
      = 256 * 256 ^ ((beBytes n).length - 1) := by
    conv_lhs => rw [show (beBytes n).length = ((beBytes n).length - 1) + 1 by omega]
    rw [pow_succ]; ring
  omega

theorem beBytes_beVal (bs : List Nat) (hb : ∀ b ∈ bs, b < 256)
    (hh : bs.head? ≠ some 0) : beBytes (beVal bs) = bs := by
  have hlast : ∀ h : bs.reverse ≠ [], bs.reverse.getLast h ≠ 0 := by
    intro hne h0
    have h1 : bs.reverse.getLast? = some (bs.reverse.getLast hne) :=
      List.getLast?_eq_getLast_of_ne_nil hne
    rw [List.getLast?_reverse, h0] at h1
    exact hh h1
  rw [beBytes, beVal_eq_ofDigits,
    Nat.digits_ofDigits 256 (by norm_num) bs.reverse
      (fun x hx => hb x (List.mem_reverse.mp hx)) hlast,
    List.reverse_reverse]

/-! ### The length field as a function of the remaining bytes -/

/-- The length-field parse of section 4.1 on the remaining byte sequence,
before the post-check: the decoded length together with the number of
length-field bytes consumed. -/
def readLengthField : List Nat → Except DerError (Nat × Nat)
  | [] => .error .TruncatedInput
  | b0 :: rest =>
    if b0 < 0x80 then .ok (b0, 1)
    else if b0 = 0x80 then .error .InvalidEncoding
    else
      let n := b0 % 0x80
      if 4 < n then .error .InvalidEncoding
      else if rest.length < n then .error .TruncatedInput
      else
        let bs := rest.take n
        if beVal bs < 0x80 then .error .InvalidEncoding
        else if 1 < n ∧ bs.head? = some 0 then .error .InvalidEncoding
        else .ok (beVal bs, 1 + n)

theorem der_read_length_eq (buf : BUFFER_READER) :
    der_read_length buf =
      match readLengthField buf.rem with
      | .error e => .error e
      | .ok (L, k) =>
        if remaining buf - k < L then .error .TruncatedInput
        else .ok (L, ⟨buf.data, buf.pos + k⟩) := by
  cases hrem : buf.rem with
  | nil => simp [der_read_length, readByte, readLengthField, hrem]
  | cons b0 rest =>
    have hbeq : (⟨buf.data, buf.pos⟩ : BUFFER_READER) = buf := rfl
    have h1 : (⟨buf.data, buf.pos + 1⟩ : BUFFER_READER).rem = rest := by
      rw [rem_add, hbeq, hrem, List.drop_one, List.tail_cons]
    have h2 : ∀ k, (⟨buf.data, buf.pos + 1 + k⟩ : BUFFER_READER).rem
        = rest.drop k := by
      intro k
      rw [show buf.pos + 1 + k = buf.pos + (k + 1) by omega, rem_add, hbeq,
        hrem, List.drop_succ_cons]
    have hr0 : remaining buf = rest.length + 1 := by
      rw [remaining_eq, hrem]; rfl
    have hr1 : remaining ⟨buf.data, buf.pos + 1⟩ = rest.length := by
      rw [remaining_eq, h1]
    have hr2 : ∀ k, remaining ⟨buf.data, buf.pos + 1 + k⟩
        = rest.length - k := by
      intro k; rw [remaining_eq, h2 k, List.length_drop]
    simp only [der_read_length, readByte, hrem, List.head?_cons, readLengthField]
    by_cases hb0 : b0 < 0x80
    · simp only [if_pos hb0, hr1, hr0, Nat.add_sub_cancel]
    · by_cases h80 : b0 = 0x80
      · simp [if_neg hb0, h80]
      · simp only [if_neg hb0, if_neg h80]
        by_cases hn4 : 4 < b0 % 0x80
        · simp [if_pos hn4]
        · simp only [if_neg hn4]
          by_cases hnr : b0 % 0x80 ≤ rest.length
          · simp only [readBytes, hr1, if_pos hnr, h1]
            have hnot : ¬ rest.length < b0 % 0x80 := by omega
            simp only [if_neg hnot]
            by_cases hv : beVal (rest.take (b0 % 0x80)) < 0x80
            · simp [if_pos hv]
            · simp only [if_neg hv]
              by_cases hz : 1 < b0 % 0x80
                  ∧ (rest.take (b0 % 0x80)).head? = some 0
              · simp [if_pos hz]
              · simp only [if_neg hz]
                rw [hr2]
                rw [show remaining buf - (1 + b0 % 0x80)
                    = rest.length - b0 % 0x80 by rw [hr0]; omega]
                rw [show buf.pos + (1 + b0 % 0x80)
                    = buf.pos + 1 + b0 % 0x80 by omega]
          · have hlt : rest.length < b0 % 0x80 := by omega
            simp [readBytes, hr1, if_neg (by omega : ¬ b0 % 0x80 ≤ rest.length),
              if_pos hlt]

theorem der_read_item_eq (buf : BUFFER_READER) :
    der_read_item buf =
      match buf.rem with
      | [] => .error .TruncatedInput
      | tag :: rest =>
        match readLengthField rest with
        | .error e => .error e
        | .ok (L, k) =>
          if rest.length - k < L then .error .TruncatedInput
          else .ok (⟨tag, ⟨(rest.drop k).take L, 0⟩⟩,
                    ⟨buf.data, buf.pos + (1 + k + L)⟩) := by
  cases hrem : buf.rem with
  | nil => simp [der_read_item, readByte, hrem]
  | cons tag rest =>
    have hbeq : (⟨buf.data, buf.pos⟩ : BUFFER_READER) = buf := rfl
    have h1 : (⟨buf.data, buf.pos + 1⟩ : BUFFER_READER).rem = rest := by
      rw [rem_add, hbeq, hrem, List.drop_one, List.tail_cons]
    have h2 : ∀ k, (⟨buf.data, buf.pos + 1 + k⟩ : BUFFER_READER).rem
        = rest.drop k := by
      intro k
      rw [show buf.pos + 1 + k = buf.pos + (k + 1) by omega, rem_add, hbeq,
        hrem, List.drop_succ_cons]
    have hr1 : remaining ⟨buf.data, buf.pos + 1⟩ = rest.length := by
      rw [remaining_eq, h1]
    have hr2 : ∀ k, remaining ⟨buf.data, buf.pos + 1 + k⟩
        = rest.length - k := by
      intro k; rw [remaining_eq, h2 k, List.length_drop]
    simp only [der_read_item, readByte, hrem, List.head?_cons]
    rw [der_read_length_eq ⟨buf.data, buf.pos + 1⟩, h1]
    cases hf : readLengthField rest with
    | error e => simp
    | ok Lk =>
      obtain ⟨L, k⟩ := Lk
      simp only [hr1]
      by_cases hpost : rest.length - k < L
      · simp [if_pos hpost]
      · simp only [if_neg hpost]
        simp only [bufSlice, hr2, h2]
        rw [if_pos (by omega : L ≤ rest.length - k)]
        rw [show buf.pos + 1 + k + L = buf.pos + (1 + k + L) by omega]

theorem readLengthField_ok_inv (l : List Nat) (L k : Nat)
    (h : readLengthField l = .ok (L, k)) :
    ∃ b0 rest, l = b0 :: rest ∧
      ((b0 < 0x80 ∧ L = b0 ∧ k = 1) ∨
       (0x80 < b0 ∧ 1 ≤ b0 % 0x80 ∧ b0 % 0x80 ≤ 4 ∧
        b0 % 0x80 ≤ rest.length ∧
        L = beVal (rest.take (b0 % 0x80)) ∧ k = 1 + b0 % 0x80 ∧ 0x80 ≤ L ∧
        ¬(1 < b0 % 0x80 ∧ (rest.take (b0 % 0x80)).head? = some 0))) := by
  cases l with
  | nil => exact absurd h (by simp [readLengthField])
  | cons b0 rest =>
    refine ⟨b0, rest, rfl, ?_⟩
    simp only [readLengthField] at h
    by_cases hb0 : b0 < 0x80
    · rw [if_pos hb0] at h
      simp only [Except.ok.injEq, Prod.mk.injEq] at h
      exact Or.inl ⟨hb0, h.1.symm, h.2.symm⟩
    · rw [if_neg hb0] at h
      by_cases h80 : b0 = 0x80
      · rw [if_pos h80] at h; exact absurd h (by simp)
      · rw [if_neg h80] at h
        by_cases hn4 : 4 < b0 % 0x80
        · rw [if_pos hn4] at h; exact absurd h (by simp)
        · rw [if_neg hn4] at h
          by_cases hnr : rest.length < b0 % 0x80
          · rw [if_pos hnr] at h; exact absurd h (by simp)
          · rw [if_neg hnr] at h
            by_cases hv : beVal (rest.take (b0 % 0x80)) < 0x80
            · rw [if_pos hv] at h; exact absurd h (by simp)
            · rw [if_neg hv] at h
              by_cases hz : 1 < b0 % 0x80
                  ∧ (rest.take (b0 % 0x80)).head? = some 0
              · rw [if_pos hz] at h; exact absurd h (by simp)
              · rw [if_neg hz] at h
                simp only [Except.ok.injEq, Prod.mk.injEq] at h
                obtain ⟨hL, hk⟩ := h
                have hn1 : 1 ≤ b0 % 0x80 := by
                  by_contra hc
                  push_neg at hc
                  have hz0 : b0 % 0x80 = 0 := by omega
                  rw [hz0] at hv
                  simp [beVal] at hv
                exact Or.inr ⟨by omega, hn1, by omega, by omega, hL.symm,
                  hk.symm, by omega, hz⟩

theorem der_read_length_ok_inv (buf : BUFFER_READER) (L : Nat)
    (buf2 : BUFFER_READER) (h : der_read_length buf = .ok (L, buf2)) :
    ∃ k, readLengthField buf.rem = .ok (L, k) ∧
      buf2 = ⟨buf.data, buf.pos + k⟩ ∧ L ≤ remaining buf - k := by
  rw [der_read_length_eq] at h
  revert h
  cases hf : readLengthField buf.rem with
  | error e => intro h; exact absurd h (by simp)
  | ok Lk =>
    obtain ⟨L', k⟩ := Lk
    intro h
    dsimp only at h
    by_cases hp : remaining buf - k < L'
    · rw [if_pos hp] at h; exact absurd h (by simp)
    · rw [if_neg hp] at h
      simp only [Except.ok.injEq, Prod.mk.injEq] at h
      obtain ⟨hL, hb⟩ := h
      exact ⟨k, by rw [hL], hb.symm, by omega⟩

/-! ### Writer characterization -/

theorem rem_zero (d : List Nat) : (⟨d, 0⟩ : BUFFER_READER).rem = d := by
  simp [BUFFER_READER.rem]

theorem remaining_zero (d : List Nat) :
    remaining ⟨d, 0⟩ = d.length := by
  simp [remaining]

/-- The canonical byte sequence that `der_write_length` appends for a given
length (section 4.1 encode). -/
def encodeLength (len : Nat) : List Nat :=
  if len < 0x80 then [len]
  else (0x80 ||| (beBytes len).length) :: beBytes len

theorem lor_eight (n : Nat) (h1 : 1 ≤ n) (h4 : n ≤ 4) :
    0x80 ||| n = 0x80 + n := by
  interval_cases n <;> rfl

theorem writeBytes_eq (bs : List Nat) : ∀ buf : BUFFER_WRITER,
    buf.data.length ≤ buf.cap →
    writeBytes buf bs =
      if buf.data.length + bs.length ≤ buf.cap
      then .ok ⟨buf.cap, buf.data ++ bs⟩ else .error .BufferFull := by
  induction bs with
  | nil =>
    intro buf hw
    simp [writeBytes, hw]
  | cons b t ih =>
    intro buf hw
    simp only [writeBytes, writeByte]
    by_cases hlt : buf.data.length < buf.cap
    · rw [if_pos hlt]
      dsimp only
      rw [ih ⟨buf.cap, buf.data ++ [b]⟩ (by simp; omega)]
      have harith : (buf.data ++ [b]).length + t.length
          = buf.data.length + (t.length + 1) := by simp; omega
      dsimp only at harith ⊢
      rw [harith, List.append_assoc]
      simp [List.length_cons]
    · rw [if_neg hlt]
      dsimp only
      rw [if_neg (by simp [List.length_cons]; omega)]

theorem der_write_length_eq (buf : BUFFER_WRITER) (len : Nat)
    (hw : buf.data.length ≤ buf.cap) :
    der_write_length buf len =
      if buf.data.length + (encodeLength len).length ≤ buf.cap
      then .ok ⟨buf.cap, buf.data ++ encodeLength len⟩
      else .error .BufferFull := by
  by_cases hl : len < 0x80
  · simp only [der_write_length, encodeLength, if_pos hl, writeByte]
    by_cases hlt : buf.data.length < buf.cap
    · rw [if_pos hlt, if_pos (by simp; omega)]
    · rw [if_neg hlt, if_neg (by simp; omega)]
  · simp only [der_write_length, encodeLength, if_neg hl, writeByte]
    by_cases hlt : buf.data.length < buf.cap
    · rw [if_pos hlt]
      dsimp only
      rw [writeBytes_eq (beBytes len) ⟨buf.cap, buf.data ++ [0x80 ||| (beBytes len).length]⟩
        (by simp; omega)]
      have harith : (buf.data ++ [0x80 ||| (beBytes len).length]).length
          + (beBytes len).length
          = buf.data.length + ((0x80 ||| (beBytes len).length) :: beBytes len).length := by
        simp; omega
      dsimp only at harith ⊢
      rw [harith, List.append_assoc]
      simp
    · rw [if_neg hlt]
      dsimp only
      rw [if_neg (by simp [List.length_cons]; omega)]

/-! ### Decoding the canonical encoding -/

theorem read_length_encodeLength (L : Nat) (hL : L < 2 ^ 32) (pad : List Nat)
    (hpad : L ≤ pad.length) :
    der_read_length ⟨encodeLength L ++ pad, 0⟩ =
      .ok (L, ⟨encodeLength L ++ pad, (encodeLength L).length⟩) := by
  rw [der_read_length_eq]
  by_cases hshort : L < 0x80
  · have henc : encodeLength L = [L] := by simp [encodeLength, hshort]
    rw [henc]
    simp only [List.singleton_append, rem_zero]
    have hf : readLengthField (L :: pad) = .ok (L, 1) := by
      simp [readLengthField, hshort]
    rw [hf]
    dsimp only
    have hr : remaining ⟨L :: pad, 0⟩ = pad.length + 1 := by
      simp [remaining]
    rw [hr, if_neg (by omega : ¬ pad.length + 1 - 1 < L)]
    simp
  · push_neg at hshort
    have hL0 : L ≠ 0 := by omega
    have h4 : L < 256 ^ 4 := by
      have h := hL
      norm_num at h ⊢
      exact h
    have hn1 : 1 ≤ (beBytes L).length := beBytes_len_pos L hL0
    have hn4 : (beBytes L).length ≤ 4 := beBytes_len_le L 4 h4
    have hlor : 0x80 ||| (beBytes L).length = 0x80 + (beBytes L).length :=
      lor_eight _ hn1 hn4
    have henc : encodeLength L
        = (0x80 + (beBytes L).length) :: beBytes L := by
      rw [encodeLength, if_neg (by omega : ¬ L < 0x80), hlor]
    rw [henc]
    simp only [List.cons_append, rem_zero]
    have hmod : (0x80 + (beBytes L).length) % 0x80 = (beBytes L).length := by
      omega
    have hf : readLengthField
        ((0x80 + (beBytes L).length) :: (beBytes L ++ pad))
        = .ok (L, 1 + (beBytes L).length) := by
      simp only [readLengthField]
      rw [if_neg (by omega : ¬ (0x80 + (beBytes L).length) < 0x80),
        if_neg (by omega : ¬ (0x80 + (beBytes L).length) = 0x80)]
      simp only [hmod]
      rw [if_neg (by omega : ¬ 4 < (beBytes L).length)]
      rw [if_neg (by simp [List.length_append]
        : ¬ (beBytes L ++ pad).length < (beBytes L).length)]
      rw [List.take_left, beVal_beBytes]
      rw [if_neg (by omega : ¬ L < 0x80)]
      rw [if_neg (fun hc => beBytes_head L hL0 hc.2)]
    rw [hf]
    dsimp only
    have hr : remaining ⟨(0x80 + (beBytes L).length) :: (beBytes L ++ pad), 0⟩
        = 1 + (beBytes L).length + pad.length := by
      simp [remaining, List.length_append]
      omega
    rw [hr,
      if_neg (by omega
        : ¬ 1 + (beBytes L).length + pad.length - (1 + (beBytes L).length) < L)]
    simp [List.length_cons]
    omega

/-! ### Uniqueness of the canonical encoding -/

theorem encodeLength_long (L : Nat) (hL : L < 2 ^ 32) (hge : 0x80 ≤ L) :
    encodeLength L = (0x80 + (beBytes L).length) :: beBytes L ∧
      1 ≤ (beBytes L).length ∧ (beBytes L).length ≤ 4 := by
  have hL0 : L ≠ 0 := by omega
  have h4 : L < 256 ^ 4 := by
    have h := hL; norm_num at h ⊢; exact h
  have hn1 := beBytes_len_pos L hL0
  have hn4 := beBytes_len_le L 4 h4
  refine ⟨?_, hn1, hn4⟩
  rw [encodeLength, if_neg (by omega : ¬ L < 0x80), lor_eight _ hn1 hn4]

theorem encodeLength_inj (L1 L2 : Nat) (h1 : L1 < 2 ^ 32) (h2 : L2 < 2 ^ 32)
    (he : encodeLength L1 = encodeLength L2) : L1 = L2 := by
  by_cases hs1 : L1 < 0x80
  · by_cases hs2 : L2 < 0x80
    · simp only [encodeLength, if_pos hs1, if_pos hs2] at he
      injection he
    · obtain ⟨henc2, hn2, -⟩ := encodeLength_long L2 h2 (by omega)
      rw [henc2] at he
      simp only [encodeLength, if_pos hs1] at he
      injection he with ha hb
      omega
  · by_cases hs2 : L2 < 0x80
    · obtain ⟨henc1, hn1, -⟩ := encodeLength_long L1 h1 (by omega)
      rw [henc1] at he
      simp only [encodeLength, if_pos hs2] at he
      injection he with ha hb
      omega
    · obtain ⟨henc1, -, -⟩ := encodeLength_long L1 h1 (by omega)
      obtain ⟨henc2, -, -⟩ := encodeLength_long L2 h2 (by omega)
      rw [henc1, henc2] at he
      injection he with ha hb
      have hv : beVal (beBytes L1) = beVal (beBytes L2) := by rw [hb]
      rwa [beVal_beBytes, beVal_beBytes] at hv

/-- A byte sequence is a valid encoding of the length `L` when the decoder,
run on it followed by `L` content bytes, accepts it, yields `L` and consumes
exactly the sequence. -/
def IsLengthEncoding (L : Nat) (bs : List Nat) : Prop :=
  (∀ b ∈ bs, b < 256) ∧
  der_read_length ⟨bs ++ List.replicate L 0, 0⟩ =
    .ok (L, ⟨bs ++ List.replicate L 0, bs.length⟩)

theorem isLengthEncoding_unique (L : Nat) (bs : List Nat)
    (h : IsLengthEncoding L bs) : bs = encodeLength L := by
  obtain ⟨hbyte, hdec⟩ := h
  obtain ⟨k, hf, hb2, hle⟩ := der_read_length_ok_inv _ _ _ hdec
  have hk : k = bs.length := by
    have hpos := congrArg BUFFER_READER.pos hb2
    simp at hpos
    omega
  rw [rem_zero] at hf
  obtain ⟨b0, rest, hcons, hcase⟩ := readLengthField_ok_inv _ _ _ hf
  rcases hcase with ⟨hb0, hLb, hk1⟩ |
    ⟨hb0, hn1, hn4, hnr, hLv, hkn, hLge, hnz⟩
  · have hlen1 : bs.length = 1 := by omega
    cases bs with
    | nil => simp at hlen1
    | cons c t =>
      have ht : t = [] := by
        cases t with
        | nil => rfl
        | cons x xs => simp at hlen1
      subst ht
      simp only [List.cons_append, List.nil_append] at hcons
      injection hcons with hc hrest
      subst hLb
      rw [hc]
      simp [encodeLength, hb0]
  · have hlenbs : bs.length = 1 + b0 % 0x80 := by omega
    cases bs with
    | nil => simp at hlenbs; omega
    | cons c t =>
      simp only [List.cons_append] at hcons
      injection hcons with hc hrest
      have hlt : t.length = b0 % 0x80 := by
        simp only [List.length_cons] at hlenbs
        omega
      have htake : rest.take (b0 % 0x80) = t := by
        rw [← hrest, ← hlt, List.take_left]
      rw [htake] at hLv hnz
      have hbt : ∀ b ∈ t, b < 256 := fun b hb => hbyte b (by simp [hb])
      have hhead : t.head? ≠ some 0 := by
        by_cases hgt : 1 < b0 % 0x80
        · intro hc0; exact hnz ⟨hgt, hc0⟩
        · have hne : b0 % 0x80 = 1 := by omega
          cases t with
          | nil => rw [hne] at hlt; simp at hlt
          | cons x xs =>
            have hxs : xs = [] := by
              cases xs with
              | nil => rfl
              | cons y ys => rw [hne] at hlt; simp at hlt
            subst hxs
            intro hc0
            simp only [List.head?_cons, Option.some.injEq] at hc0
            rw [hLv, hc0] at hLge
            simp [beVal] at hLge
      have hbb : beBytes L = t := by
        rw [hLv, beBytes_beVal t hbt hhead]
      have hb0byte : b0 < 256 := by
        have := hbyte c (by simp)
        omega
      have hb0eq : b0 = 0x80 + b0 % 0x80 := by omega
      obtain ⟨henc, -, -⟩ := encodeLength_long L
        (by
          have hvlt := beVal_lt t hbt
          rw [← hLv] at hvlt
          have hp : 256 ^ t.length ≤ 256 ^ 4 :=
            Nat.pow_le_pow_right (by norm_num) (by omega)
          have : (256 : Nat) ^ 4 = 2 ^ 32 := by norm_num
          omega) hLge
      rw [henc, hbb, hc, hlt]
      rw [← hb0eq]

/-! ### Claims -/

/-- C1 (amended): for every length `L` in `[0, 2^32)`, `der_write_length`
appends exactly the canonical encoding `encodeLength L` (failing with
`BufferFull` exactly when it does not fit), and `der_read_length` decodes
that encoding back to `L`, consuming exactly it, provided at least `L`
content bytes follow the length field (the decoder's post-check demands the
declared content be present); the encoding is unique: `encodeLength` is
injective on `[0, 2^32)` and any byte sequence the decoder accepts as an
encoding of `L` is `encodeLength L`. -/
theorem c1_roundtrip_unique (L : Nat) (hL : L < 2 ^ 32) :
    (∀ buf : BUFFER_WRITER, buf.data.length ≤ buf.cap →
      der_write_length buf L =
        if buf.data.length + (encodeLength L).length ≤ buf.cap
        then .ok ⟨buf.cap, buf.data ++ encodeLength L⟩
        else .error .BufferFull) ∧
    (∀ pad : List Nat, L ≤ pad.length →
      der_read_length ⟨encodeLength L ++ pad, 0⟩ =
        .ok (L, ⟨encodeLength L ++ pad, (encodeLength L).length⟩)) ∧
    (∀ L2, L2 < 2 ^ 32 → encodeLength L2 = encodeLength L → L2 = L) ∧
    (∀ bs, IsLengthEncoding L bs → bs = encodeLength L) :=
  ⟨fun buf hw => der_write_length_eq buf L hw,
    fun pad hpad => read_length_encodeLength L hL pad hpad,
    fun L2 h2 he => encodeLength_inj L2 L h2 hL he,
    fun bs hbs => isLengthEncoding_unique L bs hbs⟩

/-- C1 witness: the round-trip and uniqueness statement instantiated at the
length 5. -/
theorem c1_roundtrip_unique_witness :
    (5 : Nat) < 2 ^ 32 ∧
    ((∀ buf : BUFFER_WRITER, buf.data.length ≤ buf.cap →
      der_write_length buf 5 =
        if buf.data.length + (encodeLength 5).length ≤ buf.cap
        then .ok ⟨buf.cap, buf.data ++ encodeLength 5⟩
        else .error .BufferFull) ∧
    (∀ pad : List Nat, 5 ≤ pad.length →
      der_read_length ⟨encodeLength 5 ++ pad, 0⟩ =
        .ok (5, ⟨encodeLength 5 ++ pad, (encodeLength 5).length⟩)) ∧
    (∀ L2, L2 < 2 ^ 32 → encodeLength L2 = encodeLength 5 → L2 = 5) ∧
    (∀ bs, IsLengthEncoding 5 bs → bs = encodeLength 5)) :=
  ⟨by decide, c1_roundtrip_unique 5 (by decide)⟩

/-- C1 counterexample: encoding the length 1 produces the single byte
`0x01`, but decoding exactly those produced bytes (with no content after
them) fails with `TruncatedInput` from the post-check rather than yielding
1, refuting the claim as stated at `L = 1`. -/
theorem c1_counterexample :
    der_write_length ⟨1, []⟩ 1 = .ok ⟨1, [1]⟩ ∧
    der_read_length ⟨[1], 0⟩ = .error .TruncatedInput :=
  ⟨rfl, rfl⟩

/-- C2: `der_read_length` rejects non-canonical and unsupported length
forms with `InvalidEncoding`: the long form `0x81 0x05` whose value fits
the short form, the long form `0x82 0x00 0x05` with a leading zero byte,
and the indefinite form `0x80`. -/
theorem c2_canonical_rejection :
    der_read_length ⟨[0x81, 0x05], 0⟩ = .error .InvalidEncoding ∧
    der_read_length ⟨[0x82, 0x00, 0x05], 0⟩ = .error .InvalidEncoding ∧
    der_read_length ⟨[0x80], 0⟩ = .error .InvalidEncoding :=
  ⟨rfl, rfl, rfl⟩

/-- C3 (amended): for every cursor whose first remaining byte `b0` is below
`0x80` and which has at least `b0` further bytes after it, `der_read_length`
succeeds with length `b0`, consuming exactly one byte; in particular `0x7F`
followed by 127 content bytes decodes to 127 consuming 1 byte. -/
theorem c3_short_form (data : List Nat) (pos b0 : Nat) (rest : List Nat)
    (h : (⟨data, pos⟩ : BUFFER_READER).rem = b0 :: rest)
    (hb : b0 < 0x80) (hrem : b0 ≤ rest.length) :
    der_read_length ⟨data, pos⟩ = .ok (b0, ⟨data, pos + 1⟩) ∧
    der_read_length ⟨0x7F :: List.replicate 127 0, 0⟩ =
      .ok (127, ⟨0x7F :: List.replicate 127 0, 1⟩) := by
  constructor
  · rw [der_read_length_eq, h]
    have hf : readLengthField (b0 :: rest) = .ok (b0, 1) := by
      simp [readLengthField, hb]
    rw [hf]
    dsimp only
    have hr : remaining ⟨data, pos⟩ = rest.length + 1 := by
      rw [remaining_eq, h]; rfl
    rw [hr, if_neg (by omega : ¬ rest.length + 1 - 1 < b0)]
  · rfl

/-- C3 witness: the short-form statement instantiated at the cursor over
the single byte `0x00`. -/
theorem c3_short_form_witness :
    (⟨[0], 0⟩ : BUFFER_READER).rem = 0 :: [] ∧ (0 : Nat) < 0x80 ∧
    (0 : Nat) ≤ ([] : List Nat).length ∧
    (der_read_length ⟨[0], 0⟩ = .ok (0, ⟨[0], 0 + 1⟩) ∧
     der_read_length ⟨0x7F :: List.replicate 127 0, 0⟩ =
       .ok (127, ⟨0x7F :: List.replicate 127 0, 1⟩)) :=
  ⟨rfl, by decide, by decide, c3_short_form [0] 0 0 [] rfl (by decide) (by decide)⟩

/-- C3 counterexample: decoding the single byte `0x7F` with nothing after
it fails with `TruncatedInput` (the post-check) instead of yielding 127, so
the claim's particular case is false as stated. -/
theorem c3_counterexample :
    der_read_length ⟨[0x7F], 0⟩ = .error .TruncatedInput :=
  rfl

/-- C4 (amended): for every cursor whose first remaining byte `b0` exceeds
`0x80`, `der_read_length` takes `n` to be the low 7 bits of `b0` (that is,
`b0 % 0x80`), rejects `n` above the 4-byte maximum with `InvalidEncoding`,
fails with `TruncatedInput` when fewer than `n` bytes remain after `b0` (so
`0x84 0x01 0x02` fails with `TruncatedInput`), and any success returns the
big-endian value of those `n` bytes, consuming `1 + n` bytes; `0x81 0x80`
followed by 128 content bytes decodes to 128 consuming 2 bytes. -/
theorem c4_long_form (data : List Nat) (pos b0 : Nat) (rest : List Nat)
    (h : (⟨data, pos⟩ : BUFFER_READER).rem = b0 :: rest)
    (hb : 0x80 < b0) :
    (4 < b0 % 0x80 →
      der_read_length ⟨data, pos⟩ = .error .InvalidEncoding) ∧
    (b0 % 0x80 ≤ 4 → rest.length < b0 % 0x80 →
      der_read_length ⟨data, pos⟩ = .error .TruncatedInput) ∧
    (∀ L buf2, der_read_length ⟨data, pos⟩ = .ok (L, buf2) →
      L = beVal (rest.take (b0 % 0x80)) ∧
      buf2 = ⟨data, pos + (1 + b0 % 0x80)⟩) ∧
    der_read_length ⟨[0x84, 0x01, 0x02], 0⟩ = .error .TruncatedInput ∧
    der_read_length ⟨0x81 :: 0x80 :: List.replicate 128 0, 0⟩ =
      .ok (128, ⟨0x81 :: 0x80 :: List.replicate 128 0, 2⟩) := by
  refine ⟨?_, ?_, ?_, rfl, rfl⟩
  · intro h4
    rw [der_read_length_eq, h]
    have hf : readLengthField (b0 :: rest) = .error .InvalidEncoding := by
      simp only [readLengthField]
      rw [if_neg (by omega : ¬ b0 < 0x80), if_neg (by omega : ¬ b0 = 0x80),
        if_pos h4]
    rw [hf]
  · intro h4 hlt
    rw [der_read_length_eq, h]
    have hf : readLengthField (b0 :: rest) = .error .TruncatedInput := by
      simp only [readLengthField]
      rw [if_neg (by omega : ¬ b0 < 0x80), if_neg (by omega : ¬ b0 = 0x80),
        if_neg (by omega : ¬ 4 < b0 % 0x80), if_pos hlt]
    rw [hf]
  · intro L buf2 hok
    obtain ⟨k, hf, hb2, hle⟩ := der_read_length_ok_inv _ _ _ hok
    rw [h] at hf
    obtain ⟨b0', rest', hcons, hcase⟩ := readLengthField_ok_inv _ _ _ hf
    injection hcons with hcb hcr
    subst hcb
    subst hcr
    rcases hcase with ⟨hs, -, -⟩ | ⟨-, -, -, -, hLv, hkn, -, -⟩
    · omega
    · subst hkn
      exact ⟨hLv, hb2⟩

/-- C4 witness: the long-form statement instantiated at the cursor over
`0x85 0x00`, whose length-byte count 5 exceeds the maximum. -/
theorem c4_long_form_witness :
    (⟨[0x85, 0], 0⟩ : BUFFER_READER).rem = 0x85 :: [0] ∧
    (0x80 : Nat) < 0x85 ∧
    ((4 < 0x85 % 0x80 →
      der_read_length ⟨[0x85, 0], 0⟩ = .error .InvalidEncoding) ∧
    (0x85 % 0x80 ≤ 4 → ([0] : List Nat).length < 0x85 % 0x80 →
      der_read_length ⟨[0x85, 0], 0⟩ = .error .TruncatedInput) ∧
    (∀ L buf2, der_read_length ⟨[0x85, 0], 0⟩ = .ok (L, buf2) →
      L = beVal (([0] : List Nat).take (0x85 % 0x80)) ∧
      buf2 = ⟨[0x85, 0], 0 + (1 + 0x85 % 0x80)⟩) ∧
    der_read_length ⟨[0x84, 0x01, 0x02], 0⟩ = .error .TruncatedInput ∧
    der_read_length ⟨0x81 :: 0x80 :: List.replicate 128 0, 0⟩ =
      .ok (128, ⟨0x81 :: 0x80 :: List.replicate 128 0, 2⟩)) :=
  ⟨rfl, by decide, c4_long_form [0x85, 0] 0 0x85 [0] rfl (by decide)⟩

/-- C4 counterexample: decoding exactly the two bytes `0x81 0x80` fails
with `TruncatedInput` (the post-check: the 128 declared content bytes are
absent) instead of yielding 128, so the claim's particular case is false as
stated. -/
theorem c4_counterexample :
    der_read_length ⟨[0x81, 0x80], 0⟩ = .error .TruncatedInput :=
  rfl

/-- C5: whenever the length field itself parses to `(L, k)` but `L` exceeds
the bytes remaining after the field, `der_read_length` fails with
`TruncatedInput`; and on success the returned cursor has the same data,
advanced exactly past the `k` length-field bytes — not past the content —
with the decoded length not exceeding what then remains. -/
theorem c5_post_check (buf : BUFFER_READER) :
    (∀ L k, readLengthField buf.rem = .ok (L, k) →
      remaining buf - k < L →
      der_read_length buf = .error .TruncatedInput) ∧
    (∀ L buf2, der_read_length buf = .ok (L, buf2) →
      ∃ k, readLengthField buf.rem = .ok (L, k) ∧
        buf2.data = buf.data ∧ buf2.pos = buf.pos + k ∧
        L ≤ remaining buf2) := by
  constructor
  · intro L k hf hlt
    rw [der_read_length_eq, hf]
    dsimp only
    rw [if_pos hlt]
  · intro L buf2 hok
    obtain ⟨k, hf, hb2, hle⟩ := der_read_length_ok_inv buf L buf2 hok
    refine ⟨k, hf, by rw [hb2], by rw [hb2], ?_⟩
    rw [hb2]
    simp only [remaining] at hle ⊢
    omega

/-- C5 witness: the post-check statement instantiated at the cursor over
the single byte `0x05` (where the length field parses to 5 but no content
follows). -/
theorem c5_post_check_witness :
    (∀ L k, readLengthField (⟨[0x05], 0⟩ : BUFFER_READER).rem = .ok (L, k) →
      remaining ⟨[0x05], 0⟩ - k < L →
      der_read_length ⟨[0x05], 0⟩ = .error .TruncatedInput) ∧
    (∀ L buf2, der_read_length ⟨[0x05], 0⟩ = .ok (L, buf2) →
      ∃ k, readLengthField (⟨[0x05], 0⟩ : BUFFER_READER).rem = .ok (L, k) ∧
        buf2.data = (⟨[0x05], 0⟩ : BUFFER_READER).data ∧
        buf2.pos = (⟨[0x05], 0⟩ : BUFFER_READER).pos + k ∧
        L ≤ remaining buf2) :=
  c5_post_check ⟨[0x05], 0⟩

/-- C6: `der_write_length` writes the single byte `len` when `len < 0x80`,
and otherwise the byte `0x80 ||| n` followed by the `n` big-endian bytes of
`len`, where `n` is minimal (no byte sequence of value `len` is shorter)
and the bytes have no leading zero; it fails with `BufferFull` exactly when
the cursor cannot accept the required bytes. -/
theorem c6_write_length (buf : BUFFER_WRITER) (len : Nat)
    (hw : buf.data.length ≤ buf.cap) :
    (len < 0x80 →
      der_write_length buf len =
        if buf.data.length + 1 ≤ buf.cap
        then .ok ⟨buf.cap, buf.data ++ [len]⟩ else .error .BufferFull) ∧
    (0x80 ≤ len →
      beVal (beBytes len) = len ∧
      (beBytes len).head? ≠ some 0 ∧
      (∀ bs : List Nat, (∀ b ∈ bs, b < 256) → beVal bs = len →
        (beBytes len).length ≤ bs.length) ∧
      der_write_length buf len =
        if buf.data.length + (1 + (beBytes len).length) ≤ buf.cap
        then .ok ⟨buf.cap,
          buf.data ++ (0x80 ||| (beBytes len).length) :: beBytes len⟩
        else .error .BufferFull) := by
  constructor
  · intro hl
    have h := der_write_length_eq buf len hw
    rw [show encodeLength len = [len] from by simp [encodeLength, hl]] at h
    simpa using h
  · intro hge
    have hL0 : len ≠ 0 := by omega
    refine ⟨beVal_beBytes len, beBytes_head len hL0, ?_, ?_⟩
    · intro bs hb hv
      have h1 := beVal_lt bs hb
      rw [hv] at h1
      exact beBytes_len_le len bs.length h1
    · have h := der_write_length_eq buf len hw
      rw [show encodeLength len
          = (0x80 ||| (beBytes len).length) :: beBytes len
        from by rw [encodeLength, if_neg (by omega : ¬ len < 0x80)]] at h
      rw [h, List.length_cons]
      rw [show buf.data.length + (1 + (beBytes len).length)
          = buf.data.length + ((beBytes len).length + 1) by omega]

/-- C6 witness: the encoder statement instantiated at the length 130 and a
fresh cursor of capacity 3. -/
theorem c6_write_length_witness :
    ((⟨3, []⟩ : BUFFER_WRITER).data.length ≤ 3) ∧
    ((130 < 0x80 →
      der_write_length ⟨3, []⟩ 130 =
        if (⟨3, []⟩ : BUFFER_WRITER).data.length + 1 ≤ 3
        then .ok ⟨3, (⟨3, []⟩ : BUFFER_WRITER).data ++ [130]⟩
        else .error .BufferFull) ∧
    (0x80 ≤ 130 →
      beVal (beBytes 130) = 130 ∧
      (beBytes 130).head? ≠ some 0 ∧
      (∀ bs : List Nat, (∀ b ∈ bs, b < 256) → beVal bs = 130 →
        (beBytes 130).length ≤ bs.length) ∧
      der_write_length ⟨3, []⟩ 130 =
        if (⟨3, []⟩ : BUFFER_WRITER).data.length + (1 + (beBytes 130).length) ≤ 3
        then .ok ⟨3, (⟨3, []⟩ : BUFFER_WRITER).data
          ++ (0x80 ||| (beBytes 130).length) :: beBytes 130⟩
        else .error .BufferFull)) :=
  ⟨by decide, c6_write_length ⟨3, []⟩ 130 (by decide)⟩

/-- C7: `der_read_item` fails with `TruncatedInput` on an empty cursor; on
a nonempty one it takes the first byte as the tag, propagates any failure
of the length decode on the cursor after the tag, and on a successful
length decode returns the item with that tag whose content cursor sits at
position 0 over exactly the `L` declared content bytes (so its remaining
length is `L` and it exposes no byte outside the content range), advancing
the outer cursor past the content; moreover the sub-cursor constructor
itself fails with `TruncatedInput` whenever fewer than the requested bytes
remain, even if the length codec's own bounds check were bypassed. -/
theorem c7_read_item (buf : BUFFER_READER) :
    (remaining buf = 0 → der_read_item buf = .error .TruncatedInput) ∧
    (∀ tag rest, buf.rem = tag :: rest →
      (∀ e, der_read_length ⟨buf.data, buf.pos + 1⟩ = .error e →
        der_read_item buf = .error e) ∧
      (∀ L buf2, der_read_length ⟨buf.data, buf.pos + 1⟩ = .ok (L, buf2) →
        ∃ buf3, der_read_item buf =
            .ok (⟨tag, ⟨buf2.rem.take L, 0⟩⟩, buf3) ∧
          (buf2.rem.take L).length = L ∧
          remaining ⟨buf2.rem.take L, 0⟩ = L ∧
          buf3.data = buf.data ∧ buf3.pos = buf2.pos + L)) ∧
    (∀ b : BUFFER_READER, ∀ n, remaining b < n →
      bufSlice b n = .error .TruncatedInput) := by
  refine ⟨?_, ?_, ?_⟩
  · intro h0
    have hnil : buf.rem = [] := by
      have h := remaining_eq buf
      rw [h0] at h
      exact List.eq_nil_of_length_eq_zero h.symm
    rw [der_read_item_eq, hnil]
  · intro tag rest hrem
    have hbeq : (⟨buf.data, buf.pos⟩ : BUFFER_READER) = buf := rfl
    have h1 : (⟨buf.data, buf.pos + 1⟩ : BUFFER_READER).rem = rest := by
      rw [rem_add, hbeq, hrem, List.drop_one, List.tail_cons]
    constructor
    · intro e he
      rw [der_read_item_eq, hrem]
      dsimp only
      rw [der_read_length_eq, h1] at he
      revert he
      cases hf : readLengthField rest with
      | error e2 =>
        intro he
        dsimp only at he ⊢
        injection he with h3
        exact congrArg Except.error h3
      | ok Lk =>
        obtain ⟨L, k⟩ := Lk
        intro he
        dsimp only at he ⊢
        by_cases hp : remaining ⟨buf.data, buf.pos + 1⟩ - k < L
        · rw [if_pos hp] at he
          rw [if_pos (by rw [remaining_eq, h1] at hp; exact hp)]
          injection he with h3
          exact congrArg Except.error h3
        · rw [if_neg hp] at he
          exact absurd he (by simp)
    · intro L buf2 hok
      obtain ⟨k, hf, hb2, hle⟩ := der_read_length_ok_inv _ _ _ hok
      rw [h1] at hf
      have hb2' : buf2 = ⟨buf.data, buf.pos + 1 + k⟩ := hb2
      have hb2rem : buf2.rem = rest.drop k := by
        rw [hb2']
        rw [show buf.pos + 1 + k = buf.pos + (k + 1) by omega, rem_add, hbeq,
          hrem, List.drop_succ_cons]
      have hle' : L ≤ rest.length - k := by
        rw [remaining_eq, h1] at hle
        exact hle
      rw [der_read_item_eq, hrem]
      dsimp only
      rw [hf]
      dsimp only
      rw [if_neg (by omega : ¬ rest.length - k < L)]
      refine ⟨⟨buf.data, buf.pos + (1 + k + L)⟩, by rw [hb2rem], ?_, ?_, rfl, ?_⟩
      · rw [hb2rem]
        simp only [List.length_take, List.length_drop]
        omega
      · rw [remaining_zero, hb2rem]
        simp only [List.length_take, List.length_drop]
        omega
      · rw [hb2']
        dsimp only
        omega
  · intro b n hlt
    rw [bufSlice, if_neg (by omega : ¬ n ≤ remaining b)]

/-- C7 witness: the item-reader statement instantiated at the cursor over
the bytes `0x30 0x01 0xAB`. -/
theorem c7_read_item_witness :
    (remaining ⟨[0x30, 0x01, 0xAB], 0⟩ = 0 →
      der_read_item ⟨[0x30, 0x01, 0xAB], 0⟩ = .error .TruncatedInput) ∧
    (∀ tag rest, (⟨[0x30, 0x01, 0xAB], 0⟩ : BUFFER_READER).rem = tag :: rest →
      (∀ e, der_read_length ⟨[0x30, 0x01, 0xAB], 0 + 1⟩ = .error e →
        der_read_item ⟨[0x30, 0x01, 0xAB], 0⟩ = .error e) ∧
      (∀ L buf2, der_read_length ⟨[0x30, 0x01, 0xAB], 0 + 1⟩ = .ok (L, buf2) →
        ∃ buf3, der_read_item ⟨[0x30, 0x01, 0xAB], 0⟩ =
            .ok (⟨tag, ⟨buf2.rem.take L, 0⟩⟩, buf3) ∧
          (buf2.rem.take L).length = L ∧
          remaining ⟨buf2.rem.take L, 0⟩ = L ∧
          buf3.data = [0x30, 0x01, 0xAB] ∧ buf3.pos = buf2.pos + L)) ∧
    (∀ b : BUFFER_READER, ∀ n, remaining b < n →
      bufSlice b n = .error .TruncatedInput) :=
  c7_read_item ⟨[0x30, 0x01, 0xAB], 0⟩

/-- C8: `der_read_item` is deterministic and stateless: its result is a
pure function of the bytes remaining at the cursor's position. Two cursors
with the same remaining bytes produce the same error, or the same item,
with both cursors advanced by the same amount over equal remaining bytes. -/
theorem c8_pure_function (b1 b2 : BUFFER_READER) (h : b1.rem = b2.rem) :
    (∀ e, der_read_item b1 = .error e → der_read_item b2 = .error e) ∧
    (∀ item c1, der_read_item b1 = .ok (item, c1) →
      ∃ c2, der_read_item b2 = .ok (item, c2) ∧ c2.rem = c1.rem ∧
        c2.pos - b2.pos = c1.pos - b1.pos) := by
  have e1 := der_read_item_eq b1
  have e2 := der_read_item_eq b2
  rw [h] at e1
  have hbeq1 : (⟨b1.data, b1.pos⟩ : BUFFER_READER) = b1 := rfl
  have hbeq2 : (⟨b2.data, b2.pos⟩ : BUFFER_READER) = b2 := rfl
  constructor
  · intro e he
    rw [e1] at he
    rw [e2]
    revert he
    cases hrem : b2.rem with
    | nil => intro he; exact he
    | cons tag rest =>
      dsimp only
      cases hf : readLengthField rest with
      | error e3 => intro he; exact he
      | ok Lk =>
        obtain ⟨L, k⟩ := Lk
        dsimp only
        by_cases hp : rest.length - k < L
        · intro he
          rw [if_pos hp] at he ⊢
          exact he
        · intro he
          rw [if_neg hp] at he
          exact absurd he (by simp)
  · intro item c1 hok
    rw [e1] at hok
    revert hok
    cases hrem : b2.rem with
    | nil => intro hok; exact absurd hok (by simp)
    | cons tag rest =>
      dsimp only
      cases hf : readLengthField rest with
      | error e3 => intro hok; exact absurd hok (by simp)
      | ok Lk =>
        obtain ⟨L, k⟩ := Lk
        dsimp only
        by_cases hp : rest.length - k < L
        · rw [if_pos hp]
          intro hok
          exact absurd hok (by simp)
        · rw [if_neg hp]
          intro hok
          simp only [Except.ok.injEq, Prod.mk.injEq] at hok
          obtain ⟨hitem, hc1⟩ := hok
          rw [hrem] at e2
          dsimp only at e2
          rw [hf] at e2
          dsimp only at e2
          rw [if_neg hp] at e2
          refine ⟨⟨b2.data, b2.pos + (1 + k + L)⟩, ?_, ?_, ?_⟩
          · rw [e2, ← hitem]
          · rw [← hc1]
            rw [rem_add, rem_add, hbeq1, hbeq2, h]
          · rw [← hc1]
            dsimp only
            omega

/-- C8 witness: the determinism statement instantiated at two cursors in
different positions over different buffers with the same remaining bytes
`0x02 0x00`. -/
theorem c8_pure_function_witness :
    (⟨[0x02, 0x00], 0⟩ : BUFFER_READER).rem
      = (⟨[0xFF, 0x02, 0x00], 1⟩ : BUFFER_READER).rem ∧
    ((∀ e, der_read_item ⟨[0x02, 0x00], 0⟩ = .error e →
      der_read_item ⟨[0xFF, 0x02, 0x00], 1⟩ = .error e) ∧
    (∀ item c1, der_read_item ⟨[0x02, 0x00], 0⟩ = .ok (item, c1) →
      ∃ c2, der_read_item ⟨[0xFF, 0x02, 0x00], 1⟩ = .ok (item, c2) ∧
        c2.rem = c1.rem ∧
        c2.pos - (⟨[0xFF, 0x02, 0x00], 1⟩ : BUFFER_READER).pos
          = c1.pos - (⟨[0x02, 0x00], 0⟩ : BUFFER_READER).pos)) :=
  ⟨rfl, c8_pure_function ⟨[0x02, 0x00], 0⟩ ⟨[0xFF, 0x02, 0x00], 1⟩ rfl⟩

/-- C9: at the C interface of `src/crypto/der.h` each operation reports
failure only as the boolean `false`: any two failing calls of the same
operation are observationally equal under `exOk`, and all three error kinds
`TruncatedInput`, `InvalidEncoding` and `BufferFull` occur yet collapse to
the same observation. -/
theorem c9_bool_interface :
    (∀ (b1 b2 : BUFFER_READER) e1 e2,
      der_read_length b1 = .error e1 → der_read_length b2 = .error e2 →
      exOk (der_read_length b1) = exOk (der_read_length b2)) ∧
    (∀ (b1 b2 : BUFFER_READER) e1 e2,
      der_read_item b1 = .error e1 → der_read_item b2 = .error e2 →
      exOk (der_read_item b1) = exOk (der_read_item b2)) ∧
    (∀ (w1 w2 : BUFFER_WRITER) l1 l2 e1 e2,
      der_write_length w1 l1 = .error e1 → der_write_length w2 l2 = .error e2 →
      exOk (der_write_length w1 l1) = exOk (der_write_length w2 l2)) ∧
    der_read_length ⟨[], 0⟩ = .error .TruncatedInput ∧
    der_read_length ⟨[0x80], 0⟩ = .error .InvalidEncoding ∧
    der_write_length ⟨0, []⟩ 0 = .error .BufferFull ∧
    exOk (der_read_length ⟨[], 0⟩) = exOk (der_read_length ⟨[0x80], 0⟩) ∧
    exOk (der_read_length ⟨[], 0⟩) = exOk (der_write_length ⟨0, []⟩ 0) := by
  refine ⟨?_, ?_, ?_, rfl, rfl, rfl, rfl, rfl⟩
  · intro b1 b2 e1 e2 h1 h2
    rw [h1, h2]
    rfl
  · intro b1 b2 e1 e2 h1 h2
    rw [h1, h2]
    rfl
  · intro w1 w2 l1 l2 e1 e2 h1 h2
    rw [h1, h2]
    rfl

/-- C10: any tag byte followed by the length byte `0x00` parses as a
zero-length item: `der_read_item` succeeds, returns that tag with a content
cursor whose remaining length is 0, and advances the outer cursor exactly
2 bytes. -/
theorem c10_zero_length (data : List Nat) (pos tag : Nat) (rest : List Nat)
    (h : (⟨data, pos⟩ : BUFFER_READER).rem = tag :: 0x00 :: rest) :
    ∃ buf3, der_read_item ⟨data, pos⟩ = .ok (⟨tag, ⟨[], 0⟩⟩, buf3) ∧
      remaining (⟨[], 0⟩ : BUFFER_READER) = 0 ∧
      buf3.data = data ∧ buf3.pos = pos + 2 := by
  rw [der_read_item_eq, h]
  dsimp only
  have hf : readLengthField (0x00 :: rest) = .ok (0, 1) := by
    simp [readLengthField]
  rw [hf]
  dsimp only
  rw [if_neg (by omega : ¬ (0x00 :: rest).length - 1 < 0)]
  refine ⟨⟨data, pos + (1 + 1 + 0)⟩, ?_, rfl, rfl,
    (by omega : pos + (1 + 1 + 0) = pos + 2)⟩
  rw [List.take_zero]

/-- C10 witness: the zero-length-item statement instantiated at the cursor
over the bytes `0x30 0x00`. -/
theorem c10_zero_length_witness :
    (⟨[0x30, 0x00], 0⟩ : BUFFER_READER).rem = 0x30 :: 0x00 :: [] ∧
    (∃ buf3, der_read_item ⟨[0x30, 0x00], 0⟩ = .ok (⟨0x30, ⟨[], 0⟩⟩, buf3) ∧
      remaining (⟨[], 0⟩ : BUFFER_READER) = 0 ∧
      buf3.data = [0x30, 0x00] ∧ buf3.pos = 0 + 2) :=
  ⟨rfl, c10_zero_length [0x30, 0x00] 0 0x30 [] rfl⟩
